import Mathlib

/-!
# BookBrainz server middleware (`src/server/helpers/middleware.js`)

A shallow embedding of the request-pipeline stages of the middleware module and
the properties of the relationship resolution pipeline, the vocabulary loaders
and the entity-by-identifier loader.

The platform pieces the module calls are embedded first:

* `Array.prototype.sort` (`arraySort`), following V8's array sort: one run is
  detected at the front of the array and every later element is placed by a
  binary insertion;
* Bluebird's `Promise.map` (`deliver`, `collect`): the mapper is started for
  every element, the completions arrive in an arbitrary order (the schedule),
  every result is stored at the index of its input and the first rejection
  rejects the whole map.
-/

namespace BookBrainz

/-! ## Array.prototype.sort -/

/-- The scan of V8's `CountAndMakeRun`: the number of elements after `previous`
that continue the run.  `order = comparefn(current, previous)`; a descending run
stops at `order >= 0`, an ascending run stops at `order < 0`. -/
def runLength {α : Type} (cmp : α → α → Int) (descending : Bool) : α → List α → Nat
  | _, [] => 0
  | previous, current :: rest =>
    if decide (cmp current previous < 0) = descending then
      runLength cmp descending current rest + 1
    else 0

/-- V8's `CountAndMakeRun` at the front of the array: returns the initial run
(reversed in place when it is strictly descending) and the elements after it. -/
def countAndMakeRun {α : Type} (cmp : α → α → Int) : List α → List α × List α
  | [] => ([], [])
  | [a] => ([a], [])
  | a :: b :: rest =>
    let descending := decide (cmp b a < 0)
    let n := runLength cmp descending b rest + 2
    if descending then
      (((a :: b :: rest).take n).reverse, (a :: b :: rest).drop n)
    else
      ((a :: b :: rest).take n, (a :: b :: rest).drop n)

/-- The binary search of V8's `BinaryInsertionSort`: with
`order = comparefn(pivot, work[mid])`, `order < 0` moves `right` to `mid` and
anything else moves `left` to `mid + 1`.  The loop runs while `left < right`;
`fuel` bounds the number of iterations. -/
def insertionPoint {α : Type} (cmp : α → α → Int) (pivot : α) (work : List α) :
    Nat → Nat → Nat → Nat
  | 0, left, _ => left
  | fuel + 1, left, right =>
    if left < right then
      let mid := left + (right - left) / 2
      match work[mid]? with
      | some element =>
        if cmp pivot element < 0 then insertionPoint cmp pivot work fuel left mid
        else insertionPoint cmp pivot work fuel (mid + 1) right
      | none => left
    else left

/-- V8's `BinaryInsertionSort`: every element after the sorted front is moved to
the insertion point found by the binary search. -/
def binaryInsertionSort {α : Type} (cmp : α → α → Int) : List α → List α → List α
  | sorted, [] => sorted
  | sorted, pivot :: rest =>
    let left := insertionPoint cmp pivot sorted sorted.length 0 sorted.length
    binaryInsertionSort cmp (sorted.take left ++ pivot :: sorted.drop left) rest

/-- `Array.prototype.sort(comparefn)`.  The comparator's result is the number
`ToNumber(comparefn(a, b))`; only its sign is used.  For a consistent comparator
ECMAScript fixes the outcome for an array of any length: the stable ascending
order.  For any other comparator the order is implementation-defined, and the
embedding follows V8: one run is detected at the front of the array and the
remaining elements are placed by binary insertion, which is all V8 does on an
array shorter than 64 elements. -/
def arraySort {α : Type} (cmp : α → α → Int) (xs : List α) : List α :=
  binaryInsertionSort cmp (countAndMakeRun cmp xs).1 (countAndMakeRun cmp xs).2

/-- A consistent comparison function in the sense of ECMAScript: the sign of
`cmp a b` is antisymmetric and `cmp a b ≤ 0` is transitive. -/
structure ConsistentComparator {α : Type} (cmp : α → α → Int) : Prop where
  antisymm : ∀ a b, cmp a b < 0 ↔ 0 < cmp b a
  trans : ∀ a b c, cmp a b ≤ 0 → cmp b c ≤ 0 → cmp a c ≤ 0

/-- The list `res` is the stable sort of `orig` under `cmp`: a permutation of it,
ascending, in which elements that compare equal keep their original order (for
every class `p` of mutually equal elements, the elements of the class appear in
the same order). -/
def IsStableSort {α : Type} (cmp : α → α → Int) (orig res : List α) : Prop :=
  res.Perm orig ∧ res.Sorted (fun a b => cmp a b ≤ 0) ∧
    ∀ p : α → Bool, (∀ a b, p a = true → p b = true → cmp a b = 0) →
      res.filter p = orig.filter p

/-! ## Values shared by the stages -/

/-- An error value as the stages see it: the constructor name, the message and
the `status` property (absent on a plain `Error`). -/
structure ErrorValue where
  name : String
  message : String
  status : Option Int
  deriving DecidableEq, Repr

/-- The value of `new Error(message)`. -/
def newError (message : String) : ErrorValue :=
  { name := "Error", message := message, status := none }

/-- The `TypeError` the runtime raises when a property of `undefined` is read. -/
def newTypeError (message : String) : ErrorValue :=
  { name := "TypeError", message := message, status := none }

/-- Modelled from the spec: `NotFoundError` of `../helpers/error`, which is not
part of the excerpt.  A typed not-found failure carrying the caller-supplied
message, surfaced as a 404-class response. -/
def NotFoundError (message : String) : ErrorValue :=
  { name := "NotFoundError", message := message, status := some 404 }

/-- The argument of one call of the continuation `next`: `next()`,
`next('route')` or `next(err)`. -/
inductive NextArg where
  | nothing
  | route
  | error (err : ErrorValue)
  deriving DecidableEq, Repr

/-! ## Vocabulary loaders -/

/-- What a loader stage built by `makeLoader` did: the assignment
`res.locals[propName] = results` (when it ran) and the calls of `next`. -/
structure LoaderResult (α : Type) where
  attached : Option (String × List α)
  nextCalls : List NextArg

/-- `makeLoader(model, propName, sortFunc)`: the stage awaits `model.find()`
(`find` is how that promise settles), sorts the results when a `sortFunc` was
given, attaches them and calls `next()`; a rejection goes to `next`. -/
def makeLoader {α : Type} (find : Except ErrorValue (List α)) (propName : String)
    (sortFunc : Option (α → α → Int)) : LoaderResult α :=
  match find with
  | .ok results =>
    let results := match sortFunc with
      | some f => arraySort f results
      | none => results
    { attached := some (propName, results), nextCalls := [NextArg.nothing] }
  | .error err => { attached := none, nextCalls := [NextArg.error err] }

/-- A gender record. -/
structure Gender where
  id : Int
  name : String
  deriving DecidableEq, Repr

/-- A language record. -/
structure Language where
  name : String
  frequency : Int
  deriving DecidableEq, Repr

/-- The comparator of `loadGenders`, `function(a, b) { return a.id > b.id; }`.
It returns a boolean, which the sort reads as the number 1 (true) or 0 (false). -/
def genderCompare (a b : Gender) : Int :=
  if a.id > b.id then 1 else 0

/-- The stage `middleware.loadGenders`. -/
def loadGenders (find : Except ErrorValue (List Gender)) : LoaderResult Gender :=
  makeLoader find "genders" (some genderCompare)

/-- The comparator of `loadLanguages`; `localeCompare` is the platform's
`String.prototype.localeCompare`. -/
def languageCompare (localeCompare : String → String → Int) (a b : Language) : Int :=
  if a.frequency ≠ b.frequency then b.frequency - a.frequency
  else localeCompare a.name b.name

/-- The stage `middleware.loadLanguages`. -/
def loadLanguages (localeCompare : String → String → Int)
    (find : Except ErrorValue (List Language)) : LoaderResult Language :=
  makeLoader find "languages" (some (languageCompare localeCompare))

/-- Comparison of two character sequences by code points, as -1, 0 or 1. -/
def compareCodePoints : List Char → List Char → Int
  | [], [] => 0
  | [], _ :: _ => -1
  | _ :: _, [] => 1
  | a :: as, b :: bs =>
    if a.toNat < b.toNat then -1
    else if b.toNat < a.toNat then 1
    else compareCodePoints as bs

/-- A collation used to run `loadLanguages` on concrete records: the comparison
of the strings by code points. -/
def codePointCompare (a b : String) : Int :=
  compareCodePoints a.toList b.toList

/-! ## Entities and relationships -/

/-- An entity object as a participant refers to it and as the Entity Store
returns it: the identifier `entity_gid` and the remaining properties.  A bare
reference has the identifier only. -/
structure EntityRecord where
  entity_gid : String
  props : List (String × String)
  deriving DecidableEq, Repr

/-- A relationship participant, `{position, entity}`. -/
structure Participant where
  position : Int
  entity : EntityRecord
  deriving DecidableEq, Repr

/-- The relationship type descriptor, exposing `template`. -/
structure RelationshipType where
  template : String
  deriving DecidableEq, Repr

/-- A relationship object.  `template` and `rendered` are the properties the
resolution attaches; they are absent (`none`) until then. -/
structure Relationship where
  relationship_type : RelationshipType
  entities : List Participant
  template : Option String
  rendered : Option String
  deriving DecidableEq, Repr

/-- The entity held in `res.locals.entity`. -/
structure Entity where
  entity_gid : String
  relationships : List Relationship
  deriving DecidableEq, Repr

/-! ## The entity-by-identifier loader -/

/-- The character class `[0-9a-f]`. -/
def isLowerHex (c : Char) : Bool :=
  ('0' ≤ c && c ≤ '9') || ('a' ≤ c && c ≤ 'f')

/-- Matches `[0-9a-f]{n}` at the head of the input and returns what follows. -/
def matchHex : Nat → List Char → Option (List Char)
  | 0, cs => some cs
  | _ + 1, [] => none
  | n + 1, c :: cs => if isLowerHex c then matchHex n cs else none

/-- Matches `-` at the head of the input and returns what follows. -/
def matchDash : List Char → Option (List Char)
  | '-' :: cs => some cs
  | _ => none

/-- Matches `[0-9a-f]{8}-[0-9a-f]{4}-[0-9a-f]{4}-[0-9a-f]{4}-[0-9a-f]{12}` at the
head of the input and returns what follows the match. -/
def matchPatternAt (cs : List Char) : Option (List Char) :=
  (((((((((matchHex 8 cs).bind matchDash).bind (matchHex 4)).bind matchDash).bind
    (matchHex 4)).bind matchDash).bind (matchHex 4)).bind matchDash).bind (matchHex 12))

/-- The test `/[0-9a-f]{8}-…-[0-9a-f]{12}/.test(s)` of the source: the pattern
carries no anchors, so a match may start at any position of the input. -/
def regexTest : List Char → Bool
  | [] => (matchPatternAt []).isSome
  | c :: cs => (matchPatternAt (c :: cs)).isSome || regexTest cs

/-- The canonical identifier format as the specification writes it,
`^[0-9a-f]{8}-[0-9a-f]{4}-[0-9a-f]{4}-[0-9a-f]{4}-[0-9a-f]{12}$`: the whole string
is one match. -/
def isCanonicalIdentifier (s : String) : Bool :=
  matchPatternAt s.toList == some []

/-- The entity model handed to `makeEntityLoader`: its `name` and how
`findOne(id, {populate})` settles. -/
structure Model where
  name : String
  findOne : String → List String → Except ErrorValue Entity

/-- The `populate` list the loader builds for a model of the given name. -/
def populateList (modelName : String) : List String :=
  let populate := ["annotation", "disambiguation", "relationships", "aliases", "identifiers"]
  if modelName = "Edition" then
    (populate ++ ["publication"]) ++ ["publisher"]
  else if modelName = "Publication" then
    populate ++ ["editions"]
  else if modelName = "Publisher" then
    populate ++ ["editions"]
  else populate

/-- What the stage returned by `makeEntityLoader` did: the calls of
`model.findOne` (identifier and populate list), `res.locals.entity` afterwards
and the calls of `next`. -/
structure EntityLoaderResult where
  findOneCalls : List (String × List String)
  entity : Option Entity
  nextCalls : List NextArg

/-- The stage `makeEntityLoader(model, errMessage)` run as
`(req, res, next, bbid)`: `paramsBbid` is `req.params.bbid` and `localsEntity` is
`res.locals.entity` before the stage. -/
def makeEntityLoader (model : Model) (errMessage : String) (paramsBbid : String)
    (localsEntity : Option Entity) (bbid : String) : EntityLoaderResult :=
  if regexTest bbid.toList then
    let populate := populateList model.name
    match model.findOne paramsBbid populate with
    | .ok entity =>
      { findOneCalls := [(paramsBbid, populate)], entity := some entity,
        nextCalls := [NextArg.nothing] }
    | .error err =>
      if err.status = some 404 then
        { findOneCalls := [(paramsBbid, populate)], entity := localsEntity,
          nextCalls := [NextArg.error (NotFoundError errMessage)] }
      else
        { findOneCalls := [(paramsBbid, populate)], entity := localsEntity,
          nextCalls := [NextArg.error err] }
  else
    { findOneCalls := [], entity := localsEntity, nextCalls := [NextArg.route] }

/-! ## The relationship resolution stage -/

/-- The comparator `sortRelationshipEntity` of the source. -/
def sortRelationshipEntity (a b : Participant) : Int :=
  a.position - b.position

/-- One call of the outer mapper: the relationship object after the synchronous
part (template attached, `entities` sorted in place) and the result array of the
inner `Promise.map`, one slot per sorted participant, empty until the lookup of
that participant has completed. -/
structure RelationshipTask where
  relationship : Relationship
  slots : List (Option EntityRecord)
  deriving DecidableEq, Repr

/-- The state of the resolution while lookups are in flight: the tasks of the
outer `Promise.map`, by index of the relationship, and the reason of the first
rejection, if a lookup has failed. -/
structure Resolution where
  tasks : List RelationshipTask
  rejected : Option ErrorValue
  deriving DecidableEq, Repr

/-- The synchronous part of the outer mapper for one relationship: lines 83 to 89
of the source, up to the point where the lookups have been started. -/
def startRelationship (relationship : Relationship) : RelationshipTask :=
  let relEntities := arraySort sortRelationshipEntity relationship.entities
  { relationship :=
      { relationship with
        template := some relationship.relationship_type.template
        entities := relEntities }
    slots := relEntities.map (fun _ => none) }

/-- The lookup `event = (i, j)` completes: `Entity.findOne` settles for the
participant at index `j` of the sorted list of relationship `i`.  A result is
stored at index `j` of that relationship's result array; a failure rejects the
inner and hence the outer `Promise.map`, unless it is rejected already. -/
def deliver (findOne : String → Except ErrorValue EntityRecord) (state : Resolution)
    (event : Nat × Nat) : Resolution :=
  match state.tasks[event.1]? with
  | none => state
  | some task =>
    match task.relationship.entities[event.2]? with
    | none => state
    | some relEntity =>
      match findOne relEntity.entity.entity_gid with
      | .ok loaded =>
        { state with
          tasks := state.tasks.set event.1
            { task with slots := task.slots.set event.2 (some loaded) } }
      | .error err =>
        match state.rejected with
        | some _ => state
        | none => { state with rejected := some err }

/-- The result stored for the lookup `(i, j)`, if that lookup has completed
with a result. -/
def Resolution.slot (state : Resolution) (i j : Nat) : Option EntityRecord :=
  (state.tasks[i]?).bind (fun task => (task.slots[j]?).join)

/-- The participant whose entity the lookup `(i, j)` fetches: the one at index
`j` of the sorted list of relationship `i`. -/
def Resolution.participant (state : Resolution) (i j : Nat) : Option Participant :=
  (state.tasks[i]?).bind (fun task => task.relationship.entities[j]?)

/-- Every result array has one slot per participant of its relationship. -/
def Resolution.WellFormed (state : Resolution) : Prop :=
  ∀ task ∈ state.tasks, task.slots.length = task.relationship.entities.length

/-- A stored result is the result of the lookup it was stored for. -/
def SlotsSound (findOne : String → Except ErrorValue EntityRecord) (s : Resolution) : Prop :=
  ∀ i j v, s.slot i j = some v →
    ∃ p, s.participant i j = some p ∧ findOne p.entity.entity_gid = .ok v

/-- The reason of the rejection is the error of a failed lookup. -/
def RejectionSound (findOne : String → Except ErrorValue EntityRecord) (s : Resolution) : Prop :=
  ∀ err, s.rejected = some err →
    ∃ i j p, s.participant i j = some p ∧ findOne p.entity.entity_gid = .error err

/-- The result array of a `Promise.map` once every slot is filled. -/
def collect {β : Type} : List (Option β) → Option (List β)
  | [] => some []
  | none :: _ => none
  | some v :: rest => (collect rest).map (fun vs => v :: vs)

/-- The `.then` handler of the inner `Promise.map` (lines 92 to 96): when all
lookups of the relationship have succeeded, the relationship is rendered from the
loaded entities and `rendered` is attached in place. -/
def finish (render : List EntityRecord → Relationship → String)
    (task : RelationshipTask) : Relationship :=
  match collect task.slots with
  | some loadedEntities =>
    { task.relationship with rendered := some (render loadedEntities task.relationship) }
  | none => task.relationship

/-- The lookups started by the stage for the given relationships, as pairs
(index of the relationship, index of the participant in its list). -/
def pendingLookups (relationships : List Relationship) : List (Nat × Nat) :=
  relationships.enum.flatMap
    (fun ir => (List.range ir.2.entities.length).map (fun j => (ir.1, j)))

/-- What the stage `loadEntityRelationships` did: the calls of `next`, the
exception it raised synchronously (if any), the identifiers looked up with
`Entity.findOne`, per relationship the loaded entities handed to the renderer (if
it was rendered), the relationship objects afterwards, and the list assigned to
`res.locals.entity.relationships` (if the assignment of line 99 ran). -/
structure StageResult where
  nextCalls : List NextArg
  raised : Option ErrorValue
  lookups : List String
  handedToRenderer : List (Option (List EntityRecord))
  relationships : List Relationship
  assigned : Option (List Relationship)
  deriving DecidableEq, Repr

/-- The stage `middleware.loadEntityRelationships`.  `render` is
`renderRelationship(loadedEntities, relationship, null)`, `findOne` is how
`Entity.findOne(gid)` settles, `localsEntity` is `res.locals.entity` and
`schedule` is the order in which the started lookups complete.

When the entity is absent the guard calls `next` and, having no `return`, falls
through to `entity.relationships`, which raises. -/
def loadEntityRelationships (render : List EntityRecord → Relationship → String)
    (findOne : String → Except ErrorValue EntityRecord) (localsEntity : Option Entity)
    (schedule : List (Nat × Nat)) : StageResult :=
  let guardCalls : List NextArg :=
    match localsEntity with
    | none => [NextArg.error (newError "Entity failed to load")]
    | some _ => []
  match localsEntity with
  | none =>
    { nextCalls := guardCalls
      raised := some (newTypeError "Cannot read property 'relationships' of undefined")
      lookups := []
      handedToRenderer := []
      relationships := []
      assigned := none }
  | some entity =>
    let started : Resolution :=
      { tasks := entity.relationships.map startRelationship, rejected := none }
    let lookups := started.tasks.flatMap
      (fun task => task.relationship.entities.map (fun relEntity => relEntity.entity.entity_gid))
    let settled := schedule.foldl (deliver findOne) started
    let relationships := settled.tasks.map (finish render)
    let handed := settled.tasks.map (fun task => collect task.slots)
    match settled.rejected with
    | some err =>
      { nextCalls := guardCalls ++ [NextArg.error err]
        raised := none
        lookups := lookups
        handedToRenderer := handed
        relationships := relationships
        assigned := none }
    | none =>
      if settled.tasks.all (fun task => (collect task.slots).isSome) then
        { nextCalls := guardCalls ++ [NextArg.nothing]
          raised := none
          lookups := lookups
          handedToRenderer := handed
          relationships := relationships
          assigned := some relationships }
      else
        { nextCalls := guardCalls
          raised := none
          lookups := lookups
          handedToRenderer := handed
          relationships := relationships
          assigned := none }

/-! ## The scenario of the specification -/

/-- An Entity Store for the scenarios: every identifier resolves to a loaded
record, except `missing`, which is not found. -/
def scenarioStore (gid : String) : Except ErrorValue EntityRecord :=
  if gid = "missing" then .error { name := "Error", message := "no such entity", status := some 404 }
  else .ok { entity_gid := gid, props := [("loaded", "true")] }

/-- A renderer for the scenarios: the identifiers of the loaded entities, in the
order handed over. -/
def scenarioRender (loadedEntities : List EntityRecord) (_relationship : Relationship) : String :=
  String.join (loadedEntities.map (fun e => e.entity_gid))

/-- The entity of the ordering scenario: one relationship whose participants are
at positions 2, 0, 1 and refer to the entities c, a, b. -/
def scenarioEntity : Entity :=
  { entity_gid := "e"
    relationships :=
      [{ relationship_type := { template := "{0} {1} {2}" }
         entities := [⟨2, ⟨"c", []⟩⟩, ⟨0, ⟨"a", []⟩⟩, ⟨1, ⟨"b", []⟩⟩]
         template := none
         rendered := none }] }

/-- An entity with two relationships; a participant of the second refers to an
entity that is missing from the store. -/
def scenarioBrokenEntity : Entity :=
  { entity_gid := "e"
    relationships :=
      [{ relationship_type := { template := "{0} {1}" }
         entities := [⟨1, ⟨"b", []⟩⟩, ⟨0, ⟨"a", []⟩⟩]
         template := none
         rendered := none },
       { relationship_type := { template := "{0} {1}" }
         entities := [⟨0, ⟨"c", []⟩⟩, ⟨1, ⟨"missing", []⟩⟩]
         template := none
         rendered := none }] }

/-! ## Properties of the sort -/

section SortProofs

variable {α : Type} {cmp : α → α → Int}

theorem ConsistentComparator.le_of_not_lt (h : ConsistentComparator cmp) {a b : α}
    (hab : ¬ cmp a b < 0) : cmp b a ≤ 0 := by
  by_contra hba
  exact hab ((h.antisymm a b).2 (by omega))

theorem ConsistentComparator.lt_of_lt_of_le (h : ConsistentComparator cmp) {a b c : α}
    (hab : cmp a b < 0) (hbc : cmp b c ≤ 0) : cmp a c < 0 := by
  by_contra hac
  have hca : cmp c a ≤ 0 := h.le_of_not_lt hac
  have hba : cmp b a ≤ 0 := h.trans b c a hbc hca
  have := (h.antisymm a b).1 hab
  omega

theorem ConsistentComparator.lt_trans (h : ConsistentComparator cmp) {a b c : α}
    (hab : cmp a b < 0) (hbc : cmp b c < 0) : cmp a c < 0 :=
  h.lt_of_lt_of_le hab (le_of_lt hbc)

theorem binaryInsertionSort_perm (cmp : α → α → Int) :
    ∀ (rest sorted : List α), (binaryInsertionSort cmp sorted rest).Perm (sorted ++ rest) := by
  intro rest
  induction rest with
  | nil => intro sorted; simp [binaryInsertionSort]
  | cons pivot rest ih =>
    intro sorted
    simp only [binaryInsertionSort]
    refine (ih _).trans ?_
    have h1 : (List.take (insertionPoint cmp pivot sorted sorted.length 0 sorted.length) sorted ++
        pivot :: List.drop (insertionPoint cmp pivot sorted sorted.length 0 sorted.length) sorted).Perm
        (sorted ++ [pivot]) := by
      refine List.perm_middle.trans ?_
      rw [List.take_append_drop]
      exact (List.perm_append_singleton pivot sorted).symm
    have h2 := h1.append_right rest
    simpa using h2

theorem countAndMakeRun_append (cmp : α → α → Int) (xs : List α) :
    ((countAndMakeRun cmp xs).1 ++ (countAndMakeRun cmp xs).2).Perm xs := by
  match xs with
  | [] => simp [countAndMakeRun]
  | [a] => simp [countAndMakeRun]
  | a :: b :: rest =>
    simp only [countAndMakeRun]
    split
    · refine ((List.reverse_perm _).append_right _).trans ?_
      rw [List.take_append_drop]
    · rw [List.take_append_drop]

theorem arraySort_perm (cmp : α → α → Int) (xs : List α) : (arraySort cmp xs).Perm xs :=
  (binaryInsertionSort_perm cmp _ _).trans (countAndMakeRun_append cmp xs)

theorem insertionPoint_eq (cmp : α → α → Int) (pivot : α) (l₁ l₂ : List α)
    (h₁ : ∀ y ∈ l₁, ¬ cmp pivot y < 0) (h₂ : ∀ y ∈ l₂, cmp pivot y < 0) :
    ∀ (fuel left right : Nat), left ≤ l₁.length → l₁.length ≤ right →
      right ≤ (l₁ ++ l₂).length → right - left ≤ fuel →
      insertionPoint cmp pivot (l₁ ++ l₂) fuel left right = l₁.length := by
  intro fuel
  induction fuel with
  | zero =>
    intro left right hl hr _ hf
    simp only [insertionPoint]
    omega
  | succ fuel ih =>
    intro left right hl hr hlen hf
    simp only [insertionPoint]
    by_cases hlt : left < right
    · rw [if_pos hlt]
      have hmid : left + (right - left) / 2 < right := by omega
      by_cases hm : left + (right - left) / 2 < l₁.length
      · have hget : (l₁ ++ l₂)[left + (right - left) / 2]? =
            some (l₁[left + (right - left) / 2]) := by
          rw [List.getElem?_append_left hm, List.getElem?_eq_getElem hm]
        have hmem : l₁[left + (right - left) / 2] ∈ l₁ :=
          List.mem_iff_getElem?.2 ⟨_, List.getElem?_eq_getElem hm⟩
        simp only [hget]
        rw [if_neg (h₁ _ hmem)]
        exact ih _ _ (by omega) hr hlen (by omega)
      · have hm2 : left + (right - left) / 2 - l₁.length < l₂.length := by
          simp only [List.length_append] at hlen
          omega
        have hget : (l₁ ++ l₂)[left + (right - left) / 2]? =
            some (l₂[left + (right - left) / 2 - l₁.length]) := by
          rw [List.getElem?_append_right (by omega), List.getElem?_eq_getElem hm2]
        have hmem : l₂[left + (right - left) / 2 - l₁.length] ∈ l₂ :=
          List.mem_iff_getElem?.2 ⟨_, List.getElem?_eq_getElem hm2⟩
        simp only [hget]
        rw [if_pos (h₂ _ hmem)]
        exact ih _ _ hl (by omega) (by omega) (by omega)
    · rw [if_neg hlt]
      omega

/-- The binary search has finished when `insertionPoint` returns: once the fuel
covers the interval, more fuel does not change the result, whatever the
comparator. -/
theorem insertionPoint_fuel (cmp : α → α → Int) (pivot : α) (work : List α) :
    ∀ (fuel extra left right : Nat), right - left ≤ fuel →
      insertionPoint cmp pivot work (fuel + extra) left right =
        insertionPoint cmp pivot work fuel left right := by
  intro fuel
  induction fuel with
  | zero =>
    intro extra left right hf
    have hlt : ¬ left < right := by omega
    cases extra with
    | zero => rfl
    | succ k => simp [insertionPoint, hlt]
  | succ n ih =>
    intro extra left right hf
    have hrw : n + 1 + extra = (n + extra) + 1 := by omega
    rw [hrw]
    simp only [insertionPoint]
    by_cases hlt : left < right
    · simp only [if_pos hlt]
      cases work[left + (right - left) / 2]? with
      | none => rfl
      | some element =>
        simp only []
        by_cases hc : cmp pivot element < 0
        · rw [if_pos hc, if_pos hc]
          exact ih extra left _ (by omega)
        · rw [if_neg hc, if_neg hc]
          exact ih extra _ right (by omega)
    · simp only [if_neg hlt]

theorem sorted_split (h : ConsistentComparator cmp) (pivot : α) :
    ∀ work : List α, work.Sorted (fun a b => cmp a b ≤ 0) →
      ∃ l₁ l₂, work = l₁ ++ l₂ ∧ (∀ y ∈ l₁, ¬ cmp pivot y < 0) ∧ (∀ y ∈ l₂, cmp pivot y < 0) := by
  intro work
  induction work with
  | nil => intro _; exact ⟨[], [], rfl, by simp, by simp⟩
  | cons a l ih =>
    intro hs
    have hs' := List.sorted_cons.1 hs
    by_cases hp : cmp pivot a < 0
    · refine ⟨[], a :: l, rfl, by simp, ?_⟩
      intro y hy
      rcases List.mem_cons.1 hy with rfl | hy
      · exact hp
      · exact h.lt_of_lt_of_le hp (hs'.1 y hy)
    · obtain ⟨l₁, l₂, rfl, h₁, h₂⟩ := ih hs'.2
      refine ⟨a :: l₁, l₂, rfl, ?_, h₂⟩
      intro y hy
      rcases List.mem_cons.1 hy with rfl | hy
      · exact hp
      · exact h₁ y hy

theorem insert_isStableSort (h : ConsistentComparator cmp) (pivot : α) (orig l₁ l₂ : List α)
    (hs : IsStableSort cmp orig (l₁ ++ l₂))
    (h₁ : ∀ y ∈ l₁, ¬ cmp pivot y < 0) (h₂ : ∀ y ∈ l₂, cmp pivot y < 0) :
    IsStableSort cmp (orig ++ [pivot]) (l₁ ++ pivot :: l₂) := by
  obtain ⟨hperm, hsorted, hstable⟩ := hs
  refine ⟨?_, ?_, ?_⟩
  · refine List.perm_middle.trans ?_
    exact ((List.Perm.cons pivot hperm)).trans (List.perm_append_singleton pivot orig).symm
  · have hp := List.pairwise_append.1 hsorted
    refine List.pairwise_append.2 ⟨hp.1, ?_, ?_⟩
    · refine List.pairwise_cons.2 ⟨?_, hp.2.1⟩
      intro y hy
      exact le_of_lt (h₂ y hy)
    · intro a ha b hb
      rcases List.mem_cons.1 hb with rfl | hb
      · exact h.le_of_not_lt (h₁ a ha)
      · exact hp.2.2 a ha b hb
  · intro p hp
    have hst := hstable p hp
    rw [List.filter_append] at hst
    rw [List.filter_append, List.filter_append, ← hst]
    by_cases hpp : p pivot = true
    · have hl₂ : l₂.filter p = [] := by
        rw [List.filter_eq_nil_iff]
        intro y hy hpy
        have := h₂ y hy
        have := hp pivot y hpp hpy
        omega
      simp [List.filter_cons, hpp, hl₂]
    · simp [List.filter_cons, hpp]

theorem binaryInsertionSort_isStableSort (h : ConsistentComparator cmp) :
    ∀ (rest orig sorted : List α), IsStableSort cmp orig sorted →
      IsStableSort cmp (orig ++ rest) (binaryInsertionSort cmp sorted rest) := by
  intro rest
  induction rest with
  | nil => intro orig sorted hs; simpa [binaryInsertionSort] using hs
  | cons pivot rest ih =>
    intro orig sorted hs
    simp only [binaryInsertionSort]
    obtain ⟨l₁, l₂, rfl, h₁, h₂⟩ := sorted_split h pivot sorted hs.2.1
    have hk := insertionPoint_eq cmp pivot l₁ l₂ h₁ h₂ (l₁ ++ l₂).length 0 (l₁ ++ l₂).length
      (Nat.zero_le _) (by simp) (le_refl _) (by omega)
    rw [hk]
    have hstep := insert_isStableSort h pivot orig l₁ l₂ hs h₁ h₂
    have := ih (orig ++ [pivot]) (l₁ ++ pivot :: l₂) hstep
    simpa using this

theorem runLength_chain (cmp : α → α → Int) (descending : Bool) :
    ∀ (rest : List α) (previous : α),
      List.Chain (fun x y => decide (cmp y x < 0) = descending) previous
        (rest.take (runLength cmp descending previous rest)) := by
  intro rest
  induction rest with
  | nil => intro previous; simp [runLength]
  | cons current rest ih =>
    intro previous
    simp only [runLength]
    by_cases hc : decide (cmp current previous < 0) = descending
    · rw [if_pos hc, List.take_succ_cons]
      exact List.Chain.cons hc (ih current)
    · rw [if_neg hc]
      simp

theorem filter_reverse_of_descending (cmp : α → α → Int) (run : List α)
    (hrun : run.Pairwise (fun x y => cmp y x < 0)) (p : α → Bool)
    (hp : ∀ a b, p a = true → p b = true → cmp a b = 0) :
    run.reverse.filter p = run.filter p := by
  rw [List.filter_reverse]
  have hf : (run.filter p).Pairwise (fun x y => cmp y x < 0) := hrun.filter p
  have hall : ∀ x ∈ run.filter p, p x = true := fun x hx => (List.mem_filter.1 hx).2
  match hl : run.filter p with
  | [] => rfl
  | [x] => rfl
  | x :: y :: l =>
    rw [hl] at hf hall
    have hxy := (List.pairwise_cons.1 hf).1 y (by simp)
    have := hp y x (hall y (by simp)) (hall x (by simp))
    omega

theorem countAndMakeRun_isStableSort (h : ConsistentComparator cmp) (xs : List α) :
    ∃ front, xs = front ++ (countAndMakeRun cmp xs).2 ∧
      IsStableSort cmp front (countAndMakeRun cmp xs).1 := by
  match xs with
  | [] => exact ⟨[], by simp [countAndMakeRun], by simp [countAndMakeRun, IsStableSort]⟩
  | [a] => exact ⟨[a], by simp [countAndMakeRun], by simp [countAndMakeRun, IsStableSort]⟩
  | a :: b :: rest =>
    refine ⟨(a :: b :: rest).take (runLength cmp (decide (cmp b a < 0)) b rest + 2), ?_, ?_⟩
    · simp only [countAndMakeRun]
      split <;> rw [List.take_append_drop]
    · have hchain := runLength_chain cmp (decide (cmp b a < 0)) rest b
      have htake : (a :: b :: rest).take (runLength cmp (decide (cmp b a < 0)) b rest + 2) =
          a :: b :: rest.take (runLength cmp (decide (cmp b a < 0)) b rest) := by
        simp [List.take_succ_cons]
      simp only [countAndMakeRun]
      rw [htake]
      by_cases hd : cmp b a < 0
      · have hdt : decide (cmp b a < 0) = true := decide_eq_true hd
        rw [hdt] at hchain ⊢
        rw [if_pos rfl]
        have hch : List.Chain' (fun x y => cmp y x < 0)
            (a :: b :: rest.take (runLength cmp true b rest)) := by
          refine List.Chain.cons hd ?_
          exact hchain.imp (fun x y hxy => of_decide_eq_true hxy)
        haveI : IsTrans α (fun x y => cmp y x < 0) := ⟨fun x y z hxy hyz => h.lt_trans hyz hxy⟩
        have hpw := List.chain'_iff_pairwise.1 hch
        refine ⟨List.reverse_perm _, ?_, ?_⟩
        · refine List.pairwise_reverse.2 ?_
          exact hpw.imp (fun hxy => le_of_lt hxy)
        · intro p hp
          exact filter_reverse_of_descending cmp _ hpw p hp
      · have hdf : decide (cmp b a < 0) = false := decide_eq_false hd
        rw [hdf] at hchain ⊢
        simp only [Bool.false_eq_true, if_false]
        have hch : List.Chain' (fun x y => cmp x y ≤ 0)
            (a :: b :: rest.take (runLength cmp false b rest)) := by
          refine List.Chain.cons (h.le_of_not_lt hd) ?_
          exact hchain.imp (fun x y hxy => h.le_of_not_lt (of_decide_eq_false hxy))
        haveI : IsTrans α (fun x y => cmp x y ≤ 0) := ⟨fun x y z hxy hyz => h.trans x y z hxy hyz⟩
        exact ⟨List.Perm.refl _, List.chain'_iff_pairwise.1 hch, fun _ _ => rfl⟩

/-- For a consistent comparator `arraySort` returns the stable sort of its
input. -/
theorem arraySort_isStableSort (h : ConsistentComparator cmp) (xs : List α) :
    IsStableSort cmp xs (arraySort cmp xs) := by
  obtain ⟨front, hxs, hfront⟩ := countAndMakeRun_isStableSort h xs
  have := binaryInsertionSort_isStableSort h (countAndMakeRun cmp xs).2 front
    (countAndMakeRun cmp xs).1 hfront
  rw [← hxs] at this
  exact this

theorem stableSort_unique (h : ConsistentComparator cmp) :
    ∀ ys zs : List α, ys.Perm zs →
      ys.Sorted (fun a b => cmp a b ≤ 0) → zs.Sorted (fun a b => cmp a b ≤ 0) →
      (∀ p : α → Bool, (∀ a b, p a = true → p b = true → cmp a b = 0) →
        ys.filter p = zs.filter p) →
      ys = zs := by
  intro ys
  induction ys with
  | nil => intro zs hperm _ _ _; exact (List.nil_perm.1 hperm).symm
  | cons y ys ih =>
    intro zs hperm hys hzs hfilter
    cases zs with
    | nil => exact absurd hperm.symm (by simp)
    | cons z zs =>
      have hy := List.sorted_cons.1 hys
      have hz := List.sorted_cons.1 hzs
      have hself : ∀ a, cmp a a = 0 := by
        intro a
        have h1 := h.antisymm a a
        omega
      have hyz : cmp y z ≤ 0 := by
        rcases List.mem_cons.1 (hperm.symm.mem_iff.1 (List.mem_cons_self z zs)) with rfl | hm
        · exact le_of_eq (hself _)
        · exact hy.1 z hm
      have hzy : cmp z y ≤ 0 := by
        rcases List.mem_cons.1 (hperm.mem_iff.1 (List.mem_cons_self y ys)) with rfl | hm
        · exact le_of_eq (hself _)
        · exact hz.1 y hm
      have hclass : ∀ a b, decide (cmp y a = 0) = true → decide (cmp y b = 0) = true →
          cmp a b = 0 := by
        intro a b ha hb
        simp only [decide_eq_true_eq] at ha hb
        have hay : cmp a y ≤ 0 := h.le_of_not_lt (by omega)
        have hby : cmp b y ≤ 0 := h.le_of_not_lt (by omega)
        have h1 := h.trans a y b hay (le_of_eq hb)
        have h2 := h.trans b y a hby (le_of_eq ha)
        have h3 := h.antisymm a b
        have h4 := h.antisymm b a
        omega
      have hz0 : cmp y z = 0 := by
        have h1 := h.antisymm y z
        have h2 := h.antisymm z y
        omega
      have hhead := hfilter (fun a => decide (cmp y a = 0)) hclass
      simp only [List.filter_cons, hself y, hz0, decide_True, if_true] at hhead
      have hyz' : y = z := (List.cons.inj hhead).1
      subst hyz'
      congr 1
      apply ih zs (List.Perm.cons_inv hperm) hy.2 hz.2
      intro p hp
      have := hfilter p hp
      simp only [List.filter_cons] at this
      by_cases hpy : p y = true
      · simpa [hpy] using this
      · simpa [hpy] using this

/-- The stable sort of a list under a consistent comparator is unique; `arraySort`
returns it, as every stable sorting procedure does. -/
theorem arraySort_eq_of_isStableSort (h : ConsistentComparator cmp) (xs res : List α)
    (hres : IsStableSort cmp xs res) : res = arraySort cmp xs := by
  have hs := arraySort_isStableSort h xs
  apply stableSort_unique h res (arraySort cmp xs) (hres.1.trans hs.1.symm) hres.2.1 hs.2.1
  intro p hp
  rw [hres.2.2 p hp, hs.2.2 p hp]

end SortProofs

/-! ## The comparators of the source -/

theorem sortRelationshipEntity_consistent : ConsistentComparator sortRelationshipEntity := by
  constructor
  · intro a b
    simp only [sortRelationshipEntity]
    omega
  · intro a b c
    simp only [sortRelationshipEntity]
    omega

theorem languageCompare_le_iff (lc : String → String → Int) (a b : Language) :
    languageCompare lc a b ≤ 0 ↔
      (b.frequency < a.frequency ∨ (a.frequency = b.frequency ∧ lc a.name b.name ≤ 0)) := by
  simp only [languageCompare]
  by_cases hf : a.frequency = b.frequency
  · simp [hf]
  · rw [if_pos hf]
    constructor
    · intro h
      left
      omega
    · rintro (h | ⟨h, _⟩)
      · omega
      · exact absurd h hf

theorem languageCompare_lt_iff (lc : String → String → Int) (a b : Language) :
    languageCompare lc a b < 0 ↔
      (b.frequency < a.frequency ∨ (a.frequency = b.frequency ∧ lc a.name b.name < 0)) := by
  simp only [languageCompare]
  by_cases hf : a.frequency = b.frequency
  · simp [hf]
  · rw [if_pos hf]
    constructor
    · intro h
      left
      omega
    · rintro (h | ⟨h, _⟩)
      · omega
      · exact absurd h hf

theorem languageCompare_pos_iff (lc : String → String → Int) (a b : Language) :
    0 < languageCompare lc a b ↔
      (a.frequency < b.frequency ∨ (a.frequency = b.frequency ∧ 0 < lc a.name b.name)) := by
  simp only [languageCompare]
  by_cases hf : a.frequency = b.frequency
  · simp [hf]
  · rw [if_pos hf]
    constructor
    · intro h
      left
      omega
    · rintro (h | ⟨h, _⟩)
      · omega
      · exact absurd h hf

theorem languageCompare_consistent (lc : String → String → Int)
    (hlc : ConsistentComparator lc) : ConsistentComparator (languageCompare lc) := by
  constructor
  · intro a b
    rw [languageCompare_lt_iff, languageCompare_pos_iff]
    constructor
    · rintro (h | ⟨h, hn⟩)
      · exact Or.inl h
      · exact Or.inr ⟨h.symm, (hlc.antisymm _ _).1 hn⟩
    · rintro (h | ⟨h, hn⟩)
      · exact Or.inl h
      · exact Or.inr ⟨h.symm, (hlc.antisymm _ _).2 hn⟩
  · intro a b c
    rw [languageCompare_le_iff, languageCompare_le_iff, languageCompare_le_iff]
    rintro (h1 | ⟨h1, n1⟩) (h2 | ⟨h2, n2⟩)
    · left; omega
    · left; omega
    · left; omega
    · right
      exact ⟨h1.trans h2, hlc.trans _ _ _ n1 n2⟩

theorem compareCodePoints_antisymm :
    ∀ as bs : List Char, compareCodePoints as bs < 0 ↔ 0 < compareCodePoints bs as := by
  intro as
  induction as with
  | nil => intro bs; cases bs <;> simp [compareCodePoints]
  | cons a as ih =>
    intro bs
    cases bs with
    | nil => simp [compareCodePoints]
    | cons b bs =>
      simp only [compareCodePoints]
      split_ifs <;> first | omega | simp | exact ih bs

theorem compareCodePoints_trans :
    ∀ as bs cs : List Char, compareCodePoints as bs ≤ 0 → compareCodePoints bs cs ≤ 0 →
      compareCodePoints as cs ≤ 0 := by
  intro as
  induction as with
  | nil => intro bs cs; cases bs <;> cases cs <;> simp [compareCodePoints]
  | cons a as ih =>
    intro bs cs
    cases bs with
    | nil => simp [compareCodePoints]
    | cons b bs =>
      cases cs with
      | nil =>
        simp only [compareCodePoints]
        split_ifs <;> simp
      | cons c cs =>
        simp only [compareCodePoints]
        split_ifs <;> first | omega | simp | exact ih bs cs

theorem codePointCompare_consistent : ConsistentComparator codePointCompare :=
  ⟨fun a b => compareCodePoints_antisymm a.toList b.toList,
   fun a b c => compareCodePoints_trans a.toList b.toList c.toList⟩

/-- The boolean comparator of `loadGenders` never yields a negative number. -/
theorem genderCompare_nonneg (a b : Gender) : ¬ genderCompare a b < 0 := by
  simp only [genderCompare]
  split <;> omega

theorem runLength_of_nonneg {α : Type} (cmp : α → α → Int) (hc : ∀ a b, ¬ cmp a b < 0) :
    ∀ (rest : List α) (previous : α), runLength cmp false previous rest = rest.length := by
  intro rest
  induction rest with
  | nil => intro previous; rfl
  | cons current rest ih =>
    intro previous
    simp only [runLength, decide_eq_false (hc current previous), if_true, ih current,
      List.length_cons]

/-- A comparator that never yields a negative number leaves the array as it
is: the whole array is taken for one ascending run. -/
theorem arraySort_of_nonneg {α : Type} (cmp : α → α → Int) (hc : ∀ a b, ¬ cmp a b < 0)
    (xs : List α) : arraySort cmp xs = xs := by
  match xs with
  | [] => simp [arraySort, countAndMakeRun, binaryInsertionSort]
  | [a] => simp [arraySort, countAndMakeRun, binaryInsertionSort]
  | a :: b :: rest =>
    simp [arraySort, countAndMakeRun, decide_eq_false (hc b a), runLength_of_nonneg cmp hc,
      binaryInsertionSort]


/-! ## Vocabulary loaders -/

/-- C7: for every list of language records returned by `Language.find()`,
`loadLanguages` attaches to `res.locals.languages` a permutation of that list
ordered by descending frequency and, among records of equal frequency, by
ascending name (in the collation `localeCompare`), then calls `next()`. -/
theorem loadLanguages_sorted (localeCompare : String → String → Int)
    (hlc : ConsistentComparator localeCompare) (records : List Language) :
    ∃ results,
      (loadLanguages localeCompare (.ok records)).attached = some ("languages", results) ∧
      results.Perm records ∧
      results.Sorted (fun a b => b.frequency < a.frequency ∨
        (a.frequency = b.frequency ∧ localeCompare a.name b.name ≤ 0)) ∧
      (loadLanguages localeCompare (.ok records)).nextCalls = [NextArg.nothing] := by
  have hs := arraySort_isStableSort (languageCompare_consistent localeCompare hlc) records
  refine ⟨arraySort (languageCompare localeCompare) records, rfl, hs.1, ?_, rfl⟩
  exact hs.2.1.imp (fun hab => (languageCompare_le_iff localeCompare _ _).1 hab)

/-- C7, the scenario of the specification: B (1), A (2), C (2) are attached in
the order A, C, B. -/
theorem loadLanguages_sorted_witness :
    ((loadLanguages codePointCompare
        (.ok [⟨"B", 1⟩, ⟨"A", 2⟩, ⟨"C", 2⟩])).attached.map
          (fun x => x.2.map (fun l => l.name))) = some ["A", "C", "B"] ∧
    ∃ results,
      (loadLanguages codePointCompare (.ok [⟨"B", 1⟩, ⟨"A", 2⟩, ⟨"C", 2⟩])).attached =
        some ("languages", results) ∧
      results.Perm [⟨"B", 1⟩, ⟨"A", 2⟩, ⟨"C", 2⟩] ∧
      results.Sorted (fun a b => b.frequency < a.frequency ∨
        (a.frequency = b.frequency ∧ codePointCompare a.name b.name ≤ 0)) ∧
      (loadLanguages codePointCompare
        (.ok [⟨"B", 1⟩, ⟨"A", 2⟩, ⟨"C", 2⟩])).nextCalls = [NextArg.nothing] :=
  ⟨by decide, loadLanguages_sorted codePointCompare codePointCompare_consistent _⟩

/-- C8: `loadGenders` attaches the records in the order `Gender.find()` returned
them, whatever their ids: on the records with ids 2, 1 the attached list is
2, 1, which is not ascending by id. -/
theorem loadGenders_unsorted :
    (∀ records : List Gender,
      (loadGenders (.ok records)).attached = some ("genders", records)) ∧
    (loadGenders (.ok [⟨2, "Female"⟩, ⟨1, "Male"⟩])).attached =
      some ("genders", [⟨2, "Female"⟩, ⟨1, "Male"⟩]) ∧
    ¬ List.Sorted (fun a b : Gender => a.id ≤ b.id) [⟨2, "Female"⟩, ⟨1, "Male"⟩] := by
  have h : ∀ records : List Gender,
      (loadGenders (.ok records)).attached = some ("genders", records) := by
    intro records
    simp [loadGenders, makeLoader, arraySort_of_nonneg genderCompare genderCompare_nonneg]
  refine ⟨h, h _, ?_⟩
  simp [List.Sorted]

/-! ## The entity-by-identifier loader -/

theorem regexTest_of_matchPatternAt (cs : List Char) (h : (matchPatternAt cs).isSome = true) :
    regexTest cs = true := by
  cases cs with
  | nil => simpa [regexTest] using h
  | cons c cs => simp [regexTest, h]

theorem regexTest_of_canonical (s : String) (h : isCanonicalIdentifier s = true) :
    regexTest s.toList = true := by
  apply regexTest_of_matchPatternAt
  simp only [isCanonicalIdentifier, beq_iff_eq] at h
  rw [h]
  rfl

/-- C4: the string `x11111111-1111-1111-1111-111111111111` is not a canonical
identifier (a character precedes the 8-4-4-4-12 group), yet the stage performs
the entity lookup for it and does not call `next('route')`. -/
theorem makeEntityLoader_unanchored (model : Model) (errMessage paramsBbid : String)
    (localsEntity : Option Entity) :
    isCanonicalIdentifier "x11111111-1111-1111-1111-111111111111" = false ∧
    (makeEntityLoader model errMessage paramsBbid localsEntity
      "x11111111-1111-1111-1111-111111111111").findOneCalls =
        [(paramsBbid, populateList model.name)] ∧
    NextArg.route ∉ (makeEntityLoader model errMessage paramsBbid localsEntity
      "x11111111-1111-1111-1111-111111111111").nextCalls := by
  have ht : regexTest "x11111111-1111-1111-1111-111111111111".toList = true := by decide
  refine ⟨by decide, ?_, ?_⟩
  · simp only [makeEntityLoader, ht, if_true]
    cases model.findOne paramsBbid (populateList model.name) with
    | ok entity => rfl
    | error err => by_cases hs : err.status = some 404 <;> simp [hs]
  · simp only [makeEntityLoader, ht, if_true]
    cases model.findOne paramsBbid (populateList model.name) with
    | ok entity => simp
    | error err => by_cases hs : err.status = some 404 <;> simp [hs]

/-- C5: for a well-formed identifier, when `model.findOne` fails with `err` the
stage calls `next` exactly once, with a `NotFoundError` carrying `errMessage`
when `err.status` is 404 and with `err` itself otherwise, and
`res.locals.entity` is left as it was. -/
theorem makeEntityLoader_failure (model : Model) (errMessage paramsBbid : String)
    (localsEntity : Option Entity) (bbid : String) (err : ErrorValue)
    (hb : isCanonicalIdentifier bbid = true)
    (hf : model.findOne paramsBbid (populateList model.name) = .error err) :
    (makeEntityLoader model errMessage paramsBbid localsEntity bbid).nextCalls =
      [NextArg.error (if err.status = some 404 then NotFoundError errMessage else err)] ∧
    (makeEntityLoader model errMessage paramsBbid localsEntity bbid).entity = localsEntity := by
  simp only [makeEntityLoader, regexTest_of_canonical bbid hb, if_true, hf]
  by_cases hs : err.status = some 404 <;> simp [hs]

/-- C5, the scenario of the specification: the identifier
`11111111-1111-1111-1111-111111111111` is absent from the store (the lookup fails
with status 404) and the caller configured the message `Edition not found`. -/
theorem makeEntityLoader_failure_witness :
    isCanonicalIdentifier "11111111-1111-1111-1111-111111111111" = true ∧
    (makeEntityLoader ⟨"Edition", fun _ _ => .error ⟨"Error", "no such entity", some 404⟩⟩
      "Edition not found" "11111111-1111-1111-1111-111111111111" none
      "11111111-1111-1111-1111-111111111111").nextCalls =
      [NextArg.error (NotFoundError "Edition not found")] ∧
    (makeEntityLoader ⟨"Edition", fun _ _ => .error ⟨"Error", "no such entity", some 404⟩⟩
      "Edition not found" "11111111-1111-1111-1111-111111111111" none
      "11111111-1111-1111-1111-111111111111").entity = none :=
  ⟨by decide,
    makeEntityLoader_failure
      ⟨"Edition", fun _ _ => .error ⟨"Error", "no such entity", some 404⟩⟩
      "Edition not found" "11111111-1111-1111-1111-111111111111" none
      "11111111-1111-1111-1111-111111111111" ⟨"Error", "no such entity", some 404⟩
      (by decide) rfl⟩

/-- C9: for every model and every well-formed identifier the stage calls
`model.findOne` once, and the populate list it passes is annotation,
disambiguation, relationships, aliases, identifiers, followed by publication and
publisher for the model Edition, by editions for the models Publication and
Publisher, and by nothing for any other model. -/
theorem makeEntityLoader_populate (model : Model) (errMessage paramsBbid : String)
    (localsEntity : Option Entity) (bbid : String)
    (hb : isCanonicalIdentifier bbid = true) :
    (makeEntityLoader model errMessage paramsBbid localsEntity bbid).findOneCalls =
      [(paramsBbid,
        ["annotation", "disambiguation", "relationships", "aliases", "identifiers"] ++
          (if model.name = "Edition" then ["publication", "publisher"]
           else if model.name = "Publication" ∨ model.name = "Publisher" then ["editions"]
           else []))] := by
  have hp : populateList model.name =
      ["annotation", "disambiguation", "relationships", "aliases", "identifiers"] ++
          (if model.name = "Edition" then ["publication", "publisher"]
           else if model.name = "Publication" ∨ model.name = "Publisher" then ["editions"]
           else []) := by
    simp only [populateList]
    by_cases h1 : model.name = "Edition"
    · simp [h1]
    · by_cases h2 : model.name = "Publication"
      · simp [h2]
      · by_cases h3 : model.name = "Publisher"
        · simp [h3]
        · simp [h1, h2, h3]
  rw [← hp]
  simp only [makeEntityLoader, regexTest_of_canonical bbid hb, if_true]
  cases model.findOne paramsBbid (populateList model.name) with
  | ok entity => rfl
  | error err => by_cases hs : err.status = some 404 <;> simp [hs]

/-- C9 on the Publisher model with the identifier
`11111111-1111-1111-1111-111111111111`. -/
theorem makeEntityLoader_populate_witness :
    (makeEntityLoader ⟨"Publisher", fun _ _ => .ok ⟨"11111111-1111-1111-1111-111111111111", []⟩⟩
      "Publisher not found" "11111111-1111-1111-1111-111111111111" none
      "11111111-1111-1111-1111-111111111111").findOneCalls =
      [("11111111-1111-1111-1111-111111111111",
        ["annotation", "disambiguation", "relationships", "aliases", "identifiers",
          "editions"])] := by
  have h := makeEntityLoader_populate
    ⟨"Publisher", fun _ _ => .ok ⟨"11111111-1111-1111-1111-111111111111", []⟩⟩
    "Publisher not found" "11111111-1111-1111-1111-111111111111" none
    "11111111-1111-1111-1111-111111111111" (by decide)
  simpa using h

/-! ## The relationship resolution stage -/

/-- C6: when `res.locals.entity` is absent the stage calls `next` once with
`Error('Entity failed to load')` and starts no lookup, but it then reads
`entity.relationships` of the absent entity and raises a `TypeError`. -/
theorem loadEntityRelationships_absent (render : List EntityRecord → Relationship → String)
    (findOne : String → Except ErrorValue EntityRecord) (schedule : List (Nat × Nat)) :
    (loadEntityRelationships render findOne none schedule).nextCalls =
      [NextArg.error (newError "Entity failed to load")] ∧
    (loadEntityRelationships render findOne none schedule).lookups = [] ∧
    (loadEntityRelationships render findOne none schedule).raised =
      some (newTypeError "Cannot read property 'relationships' of undefined") := by
  simp [loadEntityRelationships]


/-! ### Delivery of one completion -/

theorem set_eq_of_getElem? {β : Type} (l : List β) (i : Nat) (a : β) (h : l[i]? = some a) :
    l.set i a = l := by
  apply List.ext_getElem?
  intro n
  rw [List.getElem?_set]
  by_cases hin : i = n
  · subst hin
    obtain ⟨hlt, _⟩ := List.getElem?_eq_some.1 h
    simp [hlt, h]
  · simp [hin]

theorem deliver_cases (findOne : String → Except ErrorValue EntityRecord) (s : Resolution)
    (ev : Nat × Nat) :
    deliver findOne s ev = s ∨
    (∃ t p v, s.tasks[ev.1]? = some t ∧ t.relationship.entities[ev.2]? = some p ∧
      findOne p.entity.entity_gid = .ok v ∧
      deliver findOne s ev =
        { s with tasks := s.tasks.set ev.1 { t with slots := t.slots.set ev.2 (some v) } }) ∨
    (∃ t p err, s.tasks[ev.1]? = some t ∧ t.relationship.entities[ev.2]? = some p ∧
      findOne p.entity.entity_gid = .error err ∧ s.rejected = none ∧
      deliver findOne s ev = { s with rejected := some err }) := by
  cases ht : s.tasks[ev.1]? with
  | none => left; simp [deliver, ht]
  | some t =>
    cases hp : t.relationship.entities[ev.2]? with
    | none => left; simp [deliver, ht, hp]
    | some p =>
      cases hf : findOne p.entity.entity_gid with
      | ok v =>
        right; left
        exact ⟨t, p, v, rfl, hp, hf, by simp [deliver, ht, hp, hf]⟩
      | error err =>
        cases hr : s.rejected with
        | some e => left; simp [deliver, ht, hp, hf, hr]
        | none =>
          right; right
          exact ⟨t, p, err, rfl, hp, hf, rfl, by simp [deliver, ht, hp, hf, hr]⟩

theorem deliver_relationships (findOne : String → Except ErrorValue EntityRecord)
    (s : Resolution) (ev : Nat × Nat) :
    (deliver findOne s ev).tasks.map (fun t => t.relationship) =
      s.tasks.map (fun t => t.relationship) := by
  rcases deliver_cases findOne s ev with h | ⟨t, p, v, ht, _, _, h⟩ | ⟨t, p, err, _, _, _, _, h⟩
  · rw [h]
  · rw [h]
    simp only [List.map_set]
    apply set_eq_of_getElem?
    simp [List.getElem?_map, ht]
  · rw [h]

theorem participant_eq (s : Resolution) (i j : Nat) :
    s.participant i j =
      ((s.tasks.map (fun t => t.relationship))[i]?).bind (fun r => r.entities[j]?) := by
  simp only [Resolution.participant, List.getElem?_map]
  cases s.tasks[i]? <;> rfl

theorem deliver_participant (findOne : String → Except ErrorValue EntityRecord)
    (s : Resolution) (ev : Nat × Nat) (i j : Nat) :
    (deliver findOne s ev).participant i j = s.participant i j := by
  rw [participant_eq, participant_eq, deliver_relationships]

theorem deliver_wellFormed (findOne : String → Except ErrorValue EntityRecord)
    (s : Resolution) (ev : Nat × Nat) (hs : s.WellFormed) :
    (deliver findOne s ev).WellFormed := by
  rcases deliver_cases findOne s ev with h | ⟨t, p, v, ht, _, _, h⟩ | ⟨t, p, err, _, _, _, _, h⟩
  · rw [h]; exact hs
  · rw [h]
    intro task htask
    rcases List.mem_or_eq_of_mem_set htask with hmem | rfl
    · exact hs task hmem
    · have := hs t (List.mem_iff_getElem?.2 ⟨_, ht⟩)
      simpa using this
  · rw [h]; exact hs

theorem slot_set (s : Resolution) (i j : Nat) (t : RelationshipTask) (v : EntityRecord)
    (ht : s.tasks[i]? = some t) (i' j' : Nat) :
    Resolution.slot
      { s with tasks := s.tasks.set i { t with slots := t.slots.set j (some v) } } i' j' =
      if i' = i ∧ j' = j ∧ j < t.slots.length then some v else s.slot i' j' := by
  obtain ⟨hlt, _⟩ := List.getElem?_eq_some.1 ht
  simp only [Resolution.slot, List.getElem?_set]
  by_cases hi : i = i'
  · subst hi
    simp only [if_true, hlt, ht, Option.some_bind, List.getElem?_set, true_and]
    by_cases hj : j = j'
    · subst hj
      by_cases hjl : j < t.slots.length
      · simp [hjl]
      · have : t.slots[j]? = none := List.getElem?_eq_none (by omega)
        simp [hjl, this]
    · have hj' : ¬ j' = j := fun h => hj h.symm
      simp [hj, hj']
  · have hi' : ¬ i' = i := fun h => hi h.symm
    simp [hi, hi']


theorem participant_of_task (s : Resolution) (i j : Nat) (t : RelationshipTask) (p : Participant)
    (ht : s.tasks[i]? = some t) (hp : t.relationship.entities[j]? = some p) :
    s.participant i j = some p := by
  simp [Resolution.participant, ht, hp]

theorem task_of_participant (s : Resolution) (i j : Nat) (p : Participant)
    (h : s.participant i j = some p) :
    ∃ t, s.tasks[i]? = some t ∧ t.relationship.entities[j]? = some p := by
  simp only [Resolution.participant] at h
  cases ht : s.tasks[i]? with
  | none => simp [ht] at h
  | some t => exact ⟨t, rfl, by simpa [ht] using h⟩

theorem deliver_slotsSound (findOne : String → Except ErrorValue EntityRecord)
    (s : Resolution) (ev : Nat × Nat) (hs : SlotsSound findOne s) :
    SlotsSound findOne (deliver findOne s ev) := by
  intro i j v hslot
  rw [deliver_participant]
  rcases deliver_cases findOne s ev with h | ⟨t, p, w, ht, hp, hf, h⟩ | ⟨t, p, err, _, _, _, _, h⟩
  · rw [h] at hslot
    exact hs i j v hslot
  · rw [h, slot_set s ev.1 ev.2 t w ht] at hslot
    split_ifs at hslot with hc
    · obtain ⟨rfl, rfl, _⟩ := hc
      cases hslot
      exact ⟨p, participant_of_task s _ _ t p ht hp, hf⟩
    · exact hs i j v hslot
  · rw [h] at hslot
    exact hs i j v hslot

theorem deliver_rejectionSound (findOne : String → Except ErrorValue EntityRecord)
    (s : Resolution) (ev : Nat × Nat) (hs : RejectionSound findOne s) :
    RejectionSound findOne (deliver findOne s ev) := by
  intro e he
  rcases deliver_cases findOne s ev with h | ⟨t, p, w, ht, hp, hf, h⟩ | ⟨t, p, err, ht, hp, hf, _, h⟩
  · rw [h] at he
    obtain ⟨i, j, q, hq, hfq⟩ := hs e he
    exact ⟨i, j, q, by rw [deliver_participant]; exact hq, hfq⟩
  · rw [h] at he
    obtain ⟨i, j, q, hq, hfq⟩ := hs e he
    exact ⟨i, j, q, by rw [deliver_participant]; exact hq, hfq⟩
  · rw [h] at he
    cases he
    exact ⟨ev.1, ev.2, p, by rw [deliver_participant]; exact participant_of_task s _ _ t p ht hp, hf⟩

theorem deliver_slot_mono (findOne : String → Except ErrorValue EntityRecord)
    (s : Resolution) (ev : Nat × Nat) (i j : Nat) (hs : (s.slot i j).isSome = true) :
    ((deliver findOne s ev).slot i j).isSome = true := by
  rcases deliver_cases findOne s ev with h | ⟨t, p, w, ht, hp, hf, h⟩ | ⟨t, p, err, _, _, _, _, h⟩
  · rw [h]; exact hs
  · rw [h, slot_set s ev.1 ev.2 t w ht]
    split_ifs
    · rfl
    · exact hs
  · rw [h]; exact hs

theorem deliver_rejected_mono (findOne : String → Except ErrorValue EntityRecord)
    (s : Resolution) (ev : Nat × Nat) (hs : s.rejected.isSome = true) :
    (deliver findOne s ev).rejected.isSome = true := by
  rcases deliver_cases findOne s ev with h | ⟨t, p, w, ht, hp, hf, h⟩ | ⟨t, p, err, _, _, _, _, h⟩
  · rw [h]; exact hs
  · rw [h]; exact hs
  · rw [h]; rfl

theorem deliver_complete (findOne : String → Except ErrorValue EntityRecord)
    (s : Resolution) (ev : Nat × Nat) (hw : s.WellFormed) (p : Participant)
    (hp : s.participant ev.1 ev.2 = some p) :
    (∀ v, findOne p.entity.entity_gid = .ok v →
      ((deliver findOne s ev).slot ev.1 ev.2).isSome = true) ∧
    (∀ err, findOne p.entity.entity_gid = .error err →
      (deliver findOne s ev).rejected.isSome = true) := by
  obtain ⟨t, ht, hpt⟩ := task_of_participant s _ _ p hp
  have hlen : ev.2 < t.slots.length := by
    rw [hw t (List.mem_iff_getElem?.2 ⟨_, ht⟩)]
    exact (List.getElem?_eq_some.1 hpt).1
  constructor
  · intro v hv
    have hd : deliver findOne s ev =
        { s with tasks := s.tasks.set ev.1 { t with slots := t.slots.set ev.2 (some v) } } := by
      simp [deliver, ht, hpt, hv]
    rw [hd, slot_set s ev.1 ev.2 t v ht]
    simp [hlen]
  · intro err herr
    cases hr : s.rejected with
    | some e =>
      exact deliver_rejected_mono findOne s ev (by simp [hr])
    | none =>
      have hd : deliver findOne s ev = { s with rejected := some err } := by
        simp [deliver, ht, hpt, herr, hr]
      rw [hd]
      rfl

/-! ### Delivery of a whole schedule -/

theorem foldl_deliver_relationships (findOne : String → Except ErrorValue EntityRecord) :
    ∀ (schedule : List (Nat × Nat)) (s : Resolution),
      (schedule.foldl (deliver findOne) s).tasks.map (fun t => t.relationship) =
        s.tasks.map (fun t => t.relationship) := by
  intro schedule
  induction schedule with
  | nil => intro s; rfl
  | cons ev rest ih =>
    intro s
    rw [List.foldl_cons, ih, deliver_relationships]

theorem foldl_deliver_participant (findOne : String → Except ErrorValue EntityRecord)
    (schedule : List (Nat × Nat)) (s : Resolution) (i j : Nat) :
    (schedule.foldl (deliver findOne) s).participant i j = s.participant i j := by
  rw [participant_eq, participant_eq, foldl_deliver_relationships]

theorem foldl_deliver_sound (findOne : String → Except ErrorValue EntityRecord) :
    ∀ (schedule : List (Nat × Nat)) (s : Resolution),
      s.WellFormed → SlotsSound findOne s → RejectionSound findOne s →
        (schedule.foldl (deliver findOne) s).WellFormed ∧
        SlotsSound findOne (schedule.foldl (deliver findOne) s) ∧
        RejectionSound findOne (schedule.foldl (deliver findOne) s) := by
  intro schedule
  induction schedule with
  | nil => intro s hw hs hr; exact ⟨hw, hs, hr⟩
  | cons ev rest ih =>
    intro s hw hs hr
    rw [List.foldl_cons]
    exact ih _ (deliver_wellFormed findOne s ev hw) (deliver_slotsSound findOne s ev hs)
      (deliver_rejectionSound findOne s ev hr)

theorem foldl_deliver_mono (findOne : String → Except ErrorValue EntityRecord) :
    ∀ (schedule : List (Nat × Nat)) (s : Resolution),
      (∀ i j, (s.slot i j).isSome = true →
        ((schedule.foldl (deliver findOne) s).slot i j).isSome = true) ∧
      (s.rejected.isSome = true →
        (schedule.foldl (deliver findOne) s).rejected.isSome = true) := by
  intro schedule
  induction schedule with
  | nil => intro s; exact ⟨fun _ _ h => h, fun h => h⟩
  | cons ev rest ih =>
    intro s
    rw [List.foldl_cons]
    exact ⟨fun i j h => (ih _).1 i j (deliver_slot_mono findOne s ev i j h),
      fun h => (ih _).2 (deliver_rejected_mono findOne s ev h)⟩

theorem foldl_deliver_complete (findOne : String → Except ErrorValue EntityRecord) :
    ∀ (schedule : List (Nat × Nat)) (s : Resolution), s.WellFormed →
      ∀ ev ∈ schedule, ∀ p, s.participant ev.1 ev.2 = some p →
        (∀ v, findOne p.entity.entity_gid = .ok v →
          ((schedule.foldl (deliver findOne) s).slot ev.1 ev.2).isSome = true) ∧
        (∀ err, findOne p.entity.entity_gid = .error err →
          (schedule.foldl (deliver findOne) s).rejected.isSome = true) := by
  intro schedule
  induction schedule with
  | nil => intro s _ ev hev; simp at hev
  | cons e rest ih =>
    intro s hw ev hev p hp
    rw [List.foldl_cons]
    rcases List.mem_cons.1 hev with rfl | hmem
    · have hc := deliver_complete findOne s ev hw p hp
      have hm := foldl_deliver_mono findOne rest (deliver findOne s ev)
      exact ⟨fun v hv => hm.1 _ _ (hc.1 v hv), fun err herr => hm.2 (hc.2 err herr)⟩
    · exact ih _ (deliver_wellFormed findOne s e hw) ev hmem p
        (by rw [deliver_participant]; exact hp)


/-! ### The stage as a whole -/

theorem collect_of_pointwise {β γ ε : Type} (g : γ → Except ε β) :
    ∀ (es : List γ) (slots : List (Option β)), slots.length = es.length →
      (∀ (j : Nat) (p : γ), es[j]? = some p → ∃ v, slots[j]? = some (some v) ∧ g p = .ok v) →
      ∃ vs, collect slots = some vs ∧ vs.map Except.ok = es.map g := by
  intro es
  induction es with
  | nil =>
    intro slots hlen _
    have : slots = [] := List.length_eq_zero.1 (by simpa using hlen)
    subst this
    exact ⟨[], rfl, rfl⟩
  | cons e es ih =>
    intro slots hlen h
    cases slots with
    | nil => simp at hlen
    | cons s slots =>
      obtain ⟨v, hv, hg⟩ := h 0 e (by simp)
      have hs : s = some v := by simpa using hv
      subst hs
      obtain ⟨vs, hvs, hmap⟩ := ih slots (by simpa using hlen)
        (fun j p hp => by simpa using h (j + 1) p (by simpa using hp))
      exact ⟨v :: vs, by simp [collect, hvs], by simp [hmap, hg]⟩

theorem mem_pendingLookups (relationships : List Relationship) (i j : Nat) :
    (i, j) ∈ pendingLookups relationships ↔
      ∃ r, relationships[i]? = some r ∧ j < r.entities.length := by
  simp only [pendingLookups, List.mem_flatMap, List.mem_map, List.mem_range, Prod.mk.injEq]
  constructor
  · rintro ⟨⟨i', r⟩, hmem, j', hj', rfl, rfl⟩
    exact ⟨r, List.mk_mem_enum_iff_getElem?.1 hmem, hj'⟩
  · rintro ⟨r, hr, hj⟩
    exact ⟨(i, r), List.mk_mem_enum_iff_getElem?.2 hr, j, hj, rfl, rfl⟩

theorem startRelationship_entities (r : Relationship) :
    (startRelationship r).relationship.entities = arraySort sortRelationshipEntity r.entities :=
  rfl

theorem started_wellFormed (relationships : List Relationship) :
    Resolution.WellFormed { tasks := relationships.map startRelationship, rejected := none } := by
  intro task htask
  obtain ⟨r, _, rfl⟩ := List.mem_map.1 htask
  simp [startRelationship]

theorem started_slot (relationships : List Relationship) (i j : Nat) :
    Resolution.slot { tasks := relationships.map startRelationship, rejected := none } i j =
      none := by
  simp only [Resolution.slot, List.getElem?_map]
  cases relationships[i]? with
  | none => rfl
  | some r =>
    simp only [Option.map_some', Option.some_bind, startRelationship, List.getElem?_map]
    cases (arraySort sortRelationshipEntity r.entities)[j]? <;> rfl

theorem started_participant (relationships : List Relationship) (i j : Nat) (p : Participant)
    (h : Resolution.participant
      { tasks := relationships.map startRelationship, rejected := none } i j = some p) :
    ∃ r, relationships[i]? = some r ∧
      (arraySort sortRelationshipEntity r.entities)[j]? = some p ∧ p ∈ r.entities ∧
      j < r.entities.length := by
  obtain ⟨t, ht, hp⟩ := task_of_participant _ _ _ _ h
  simp only [List.getElem?_map] at ht
  cases hr : relationships[i]? with
  | none => simp [hr] at ht
  | some r =>
    simp only [hr, Option.map_some', Option.some.injEq] at ht
    subst ht
    rw [startRelationship_entities] at hp
    have hperm := arraySort_perm sortRelationshipEntity r.entities
    refine ⟨r, rfl, hp, hperm.mem_iff.1 (List.mem_iff_getElem?.2 ⟨_, hp⟩), ?_⟩
    rw [← hperm.length_eq]
    exact (List.getElem?_eq_some.1 hp).1

/-- What the stage does when every lookup succeeds and every started lookup
completes: the tasks it ends with are the started ones, every result array is
filled, index for index, with the results of the lookups of the sorted
participants, the relationships are assigned and `next()` is called. -/
theorem loadEntityRelationships_success
    (render : List EntityRecord → Relationship → String)
    (findOne : String → Except ErrorValue EntityRecord) (entity : Entity)
    (schedule : List (Nat × Nat))
    (hok : ∀ r ∈ entity.relationships, ∀ p ∈ r.entities,
      ∃ v, findOne p.entity.entity_gid = .ok v)
    (hsched : ∀ ev ∈ pendingLookups entity.relationships, ev ∈ schedule) :
    ∃ tasks : List RelationshipTask,
      (loadEntityRelationships render findOne (some entity) schedule).nextCalls =
        [NextArg.nothing] ∧
      (loadEntityRelationships render findOne (some entity) schedule).assigned =
        some (tasks.map (finish render)) ∧
      (loadEntityRelationships render findOne (some entity) schedule).relationships =
        tasks.map (finish render) ∧
      (loadEntityRelationships render findOne (some entity) schedule).handedToRenderer =
        tasks.map (fun t => collect t.slots) ∧
      tasks.map (fun t => t.relationship) =
        entity.relationships.map (fun r => (startRelationship r).relationship) ∧
      ∀ t ∈ tasks, ∃ loaded, collect t.slots = some loaded ∧
        loaded.map Except.ok =
          t.relationship.entities.map (fun p => findOne p.entity.entity_gid) := by
  obtain ⟨hw, hsound, hrej⟩ := foldl_deliver_sound findOne schedule
    { tasks := entity.relationships.map startRelationship, rejected := none }
    (started_wellFormed _) (fun i j v h => by simp [started_slot] at h)
    (fun err h => by simp at h)
  have hrel := foldl_deliver_relationships findOne schedule
    { tasks := entity.relationships.map startRelationship, rejected := none }
  simp only [List.map_map] at hrel
  have htasks : ∀ t ∈ (schedule.foldl (deliver findOne)
      { tasks := entity.relationships.map startRelationship, rejected := none }).tasks,
      ∃ loaded, collect t.slots = some loaded ∧
        loaded.map Except.ok =
          t.relationship.entities.map (fun p => findOne p.entity.entity_gid) := by
    intro t ht
    obtain ⟨i, hi⟩ := List.mem_iff_getElem?.1 ht
    apply collect_of_pointwise (fun p : Participant => findOne p.entity.entity_gid)
      t.relationship.entities t.slots (hw t ht)
    intro j p hp
    have hpart := participant_of_task _ i j t p hi hp
    have hpart0 := hpart
    rw [foldl_deliver_participant] at hpart0
    obtain ⟨r, hr, _, hmem, hj⟩ := started_participant _ _ _ _ hpart0
    obtain ⟨v, hv⟩ := hok r (List.mem_iff_getElem?.2 ⟨_, hr⟩) p hmem
    have hev : (i, j) ∈ schedule := hsched _ ((mem_pendingLookups _ _ _).2 ⟨r, hr, hj⟩)
    have hfilled := (foldl_deliver_complete findOne schedule _ (started_wellFormed _)
      (i, j) hev p hpart0).1 v hv
    obtain ⟨w, hw'⟩ := Option.isSome_iff_exists.1 hfilled
    obtain ⟨p', hp', hf'⟩ := hsound i j w hw'
    rw [hpart] at hp'
    cases hp'
    refine ⟨w, ?_, hf'⟩
    simp only [Resolution.slot, hi, Option.some_bind] at hw'
    exact Option.join_eq_some.1 hw'
  have hnone : (schedule.foldl (deliver findOne)
      { tasks := entity.relationships.map startRelationship, rejected := none }).rejected =
      none := by
    cases hr : (schedule.foldl (deliver findOne)
      { tasks := entity.relationships.map startRelationship, rejected := none }).rejected with
    | none => rfl
    | some err =>
      obtain ⟨i, j, p, hp, hf⟩ := hrej err hr
      rw [foldl_deliver_participant] at hp
      obtain ⟨r, hr', _, hmem, _⟩ := started_participant _ _ _ _ hp
      obtain ⟨v, hv⟩ := hok r (List.mem_iff_getElem?.2 ⟨_, hr'⟩) p hmem
      rw [hv] at hf
      cases hf
  have hall : (schedule.foldl (deliver findOne)
      { tasks := entity.relationships.map startRelationship, rejected := none }).tasks.all
      (fun task => (collect task.slots).isSome) = true := by
    rw [List.all_eq_true]
    intro t ht
    obtain ⟨loaded, hl, _⟩ := htasks t ht
    simp [hl]
  refine ⟨(schedule.foldl (deliver findOne)
      { tasks := entity.relationships.map startRelationship, rejected := none }).tasks,
    ?_, ?_, ?_, ?_, ?_, htasks⟩
  · simp only [loadEntityRelationships, hnone, hall, if_true, List.nil_append]
  · simp only [loadEntityRelationships, hnone, hall, if_true]
  · simp only [loadEntityRelationships, hnone, hall, if_true]
  · simp only [loadEntityRelationships, hnone, hall, if_true]
  · rw [hrel]
    apply List.map_congr_left
    intro r _
    rfl


theorem finish_of_collect (render : List EntityRecord → Relationship → String)
    (t : RelationshipTask) (loaded : List EntityRecord) (h : collect t.slots = some loaded) :
    finish render t =
      { t.relationship with rendered := some (render loaded t.relationship) } := by
  simp [finish, h]

theorem task_of_started (tasks : List RelationshipTask) (relationships : List Relationship)
    (h : tasks.map (fun t => t.relationship) =
      relationships.map (fun r => (startRelationship r).relationship))
    (i : Nat) (r : Relationship) (hr : relationships[i]? = some r) :
    ∃ t, tasks[i]? = some t ∧ t.relationship = (startRelationship r).relationship := by
  have h1 : (tasks.map (fun t => t.relationship))[i]? =
      some (startRelationship r).relationship := by
    rw [h, List.getElem?_map, hr]
    rfl
  rw [List.getElem?_map] at h1
  cases ht : tasks[i]? with
  | none => simp [ht] at h1
  | some t => exact ⟨t, rfl, by simpa [ht] using h1⟩

/-- C1: when all lookups succeed, whatever the order in which the lookups
complete, the `entities` list of every relationship is afterwards the stable
ascending-by-position sort of its original participant list (a permutation,
ascending by position, participants of equal position in their original order),
and the call `renderRelationship(loadedEntities, relationship, null)` of line 93
receives as `loadedEntities` the list that is, index for index, the lookup result
of the `entity_gid` of the participant at that index of the sorted list: the
`rendered` value attached to the relationship is the renderer's value for exactly
that list, for every renderer. -/
theorem loadEntityRelationships_order
    (render : List EntityRecord → Relationship → String)
    (findOne : String → Except ErrorValue EntityRecord) (entity : Entity)
    (schedule : List (Nat × Nat))
    (hok : ∀ r ∈ entity.relationships, ∀ p ∈ r.entities,
      ∃ v, findOne p.entity.entity_gid = .ok v)
    (hsched : schedule.Perm (pendingLookups entity.relationships))
    (i : Nat) (r : Relationship) (hr : entity.relationships[i]? = some r) :
    ∃ r' loaded,
      (loadEntityRelationships render findOne (some entity) schedule).relationships[i]? =
        some r' ∧
      r'.entities.Perm r.entities ∧
      r'.entities.Sorted (fun a b => a.position ≤ b.position) ∧
      (∀ k : Int, r'.entities.filter (fun p => decide (p.position = k)) =
        r.entities.filter (fun p => decide (p.position = k))) ∧
      (loadEntityRelationships render findOne (some entity) schedule).handedToRenderer[i]? =
        some (some loaded) ∧
      loaded.map Except.ok = r'.entities.map (fun p => findOne p.entity.entity_gid) ∧
      r'.rendered = some (render loaded
        { r with
          template := some r.relationship_type.template
          entities := r'.entities }) := by
  obtain ⟨tasks, _, _, hrels, hhanded, hstart, hloaded⟩ :=
    loadEntityRelationships_success render findOne entity schedule hok
      (fun ev hev => hsched.mem_iff.2 hev)
  obtain ⟨t, ht, htr⟩ := task_of_started tasks _ hstart i r hr
  obtain ⟨loaded, hl, hmap⟩ := hloaded t (List.mem_iff_getElem?.2 ⟨_, ht⟩)
  have hsort := arraySort_isStableSort sortRelationshipEntity_consistent r.entities
  have hent : (finish render t).entities = arraySort sortRelationshipEntity r.entities := by
    rw [finish_of_collect render t loaded hl]
    simp only [htr]
    rfl
  refine ⟨finish render t, loaded, ?_, ?_, ?_, ?_, ?_, ?_, ?_⟩
  · rw [hrels, List.getElem?_map, ht]
    rfl
  · rw [hent]
    exact hsort.1
  · rw [hent]
    exact hsort.2.1.imp (fun hab => by simp only [sortRelationshipEntity] at hab; omega)
  · intro k
    rw [hent]
    apply hsort.2.2
    intro a b ha hb
    simp only [decide_eq_true_eq] at ha hb
    simp only [sortRelationshipEntity]
    omega
  · rw [hhanded, List.getElem?_map, ht]
    simp [hl]
  · rw [hent, hmap, htr]
    rfl
  · rw [finish_of_collect render t loaded hl, htr]
    rfl

theorem scenarioStore_ok : ∀ r ∈ scenarioEntity.relationships, ∀ p ∈ r.entities,
    ∃ v, scenarioStore p.entity.entity_gid = .ok v := by
  intro r hr p hp
  simp only [scenarioEntity, List.mem_singleton] at hr
  subst hr
  simp only [List.mem_cons, List.mem_singleton, List.not_mem_nil, or_false] at hp
  rcases hp with rfl | rfl | rfl <;> exact ⟨_, rfl⟩

/-- C1, the scenario of the specification: the participants at positions 2, 0, 1
refer to c, a, b; the lookups complete in the order c, a, b; the renderer, which
here writes out the identifiers of the entities in the order it receives them,
is called with the loaded a, b, c and returns `abc`. -/
theorem loadEntityRelationships_order_witness :
    (loadEntityRelationships scenarioRender scenarioStore (some scenarioEntity)
        [(0, 2), (0, 0), (0, 1)]).handedToRenderer =
      [some [⟨"a", [("loaded", "true")]⟩, ⟨"b", [("loaded", "true")]⟩,
        ⟨"c", [("loaded", "true")]⟩]] ∧
    (loadEntityRelationships scenarioRender scenarioStore (some scenarioEntity)
        [(0, 2), (0, 0), (0, 1)]).relationships.map (fun r => r.rendered) =
      [some "abc"] ∧
    ∃ r' loaded,
      (loadEntityRelationships scenarioRender scenarioStore (some scenarioEntity)
        [(0, 2), (0, 0), (0, 1)]).relationships[0]? = some r' ∧
      r'.entities.Perm [⟨2, ⟨"c", []⟩⟩, ⟨0, ⟨"a", []⟩⟩, ⟨1, ⟨"b", []⟩⟩] ∧
      r'.entities.Sorted (fun a b => a.position ≤ b.position) ∧
      (∀ k : Int, r'.entities.filter (fun p => decide (p.position = k)) =
        [(⟨2, ⟨"c", []⟩⟩ : Participant), ⟨0, ⟨"a", []⟩⟩, ⟨1, ⟨"b", []⟩⟩].filter
          (fun p => decide (p.position = k))) ∧
      (loadEntityRelationships scenarioRender scenarioStore (some scenarioEntity)
        [(0, 2), (0, 0), (0, 1)]).handedToRenderer[0]? = some (some loaded) ∧
      loaded.map Except.ok =
        r'.entities.map (fun p => scenarioStore p.entity.entity_gid) ∧
      r'.rendered = some (scenarioRender loaded
        { relationship_type := ⟨"{0} {1} {2}"⟩
          entities := r'.entities
          template := some "{0} {1} {2}"
          rendered := none }) :=
  ⟨by decide, by decide,
    loadEntityRelationships_order scenarioRender scenarioStore scenarioEntity
      [(0, 2), (0, 0), (0, 1)] scenarioStore_ok (by decide) 0 _ rfl⟩

/-- C2: for an entity with N relationships whose participant lookups all
succeed, the stage assigns to `res.locals.entity.relationships` a list of exactly
N relationships whose element at every index is the original relationship of
that index (with `template`, the sorted `entities` and `rendered` attached), so
that every original relationship occurs exactly once, and it calls `next` once,
with no argument. -/
theorem loadEntityRelationships_total
    (render : List EntityRecord → Relationship → String)
    (findOne : String → Except ErrorValue EntityRecord) (entity : Entity)
    (schedule : List (Nat × Nat))
    (hok : ∀ r ∈ entity.relationships, ∀ p ∈ r.entities,
      ∃ v, findOne p.entity.entity_gid = .ok v)
    (hsched : schedule.Perm (pendingLookups entity.relationships)) :
    ∃ resolved,
      (loadEntityRelationships render findOne (some entity) schedule).assigned =
        some resolved ∧
      resolved.length = entity.relationships.length ∧
      (∀ (i : Nat) (r : Relationship), entity.relationships[i]? = some r →
        ∃ rendered, resolved[i]? = some
          { r with
            template := some r.relationship_type.template
            entities := arraySort sortRelationshipEntity r.entities
            rendered := some rendered }) ∧
      (loadEntityRelationships render findOne (some entity) schedule).nextCalls =
        [NextArg.nothing] := by
  obtain ⟨tasks, hnext, hassigned, _, _, hstart, hloaded⟩ :=
    loadEntityRelationships_success render findOne entity schedule hok
      (fun ev hev => hsched.mem_iff.2 hev)
  refine ⟨tasks.map (finish render), hassigned, ?_, ?_, hnext⟩
  · have := congrArg List.length hstart
    simpa using this
  · intro i r hr
    obtain ⟨t, ht, htr⟩ := task_of_started tasks _ hstart i r hr
    obtain ⟨loaded, hl, _⟩ := hloaded t (List.mem_iff_getElem?.2 ⟨_, ht⟩)
    refine ⟨render loaded t.relationship, ?_⟩
    rw [List.getElem?_map, ht, Option.map_some', finish_of_collect render t loaded hl, htr]
    rfl

/-- C2 on the entity of the ordering scenario (one relationship). -/
theorem loadEntityRelationships_total_witness :
    ∃ resolved,
      (loadEntityRelationships scenarioRender scenarioStore (some scenarioEntity)
        [(0, 1), (0, 2), (0, 0)]).assigned = some resolved ∧
      resolved.length = scenarioEntity.relationships.length ∧
      (∀ (i : Nat) (r : Relationship), scenarioEntity.relationships[i]? = some r →
        ∃ rendered, resolved[i]? = some
          { r with
            template := some r.relationship_type.template
            entities := arraySort sortRelationshipEntity r.entities
            rendered := some rendered }) ∧
      (loadEntityRelationships scenarioRender scenarioStore (some scenarioEntity)
        [(0, 1), (0, 2), (0, 0)]).nextCalls = [NextArg.nothing] :=
  loadEntityRelationships_total scenarioRender scenarioStore scenarioEntity
    [(0, 1), (0, 2), (0, 0)] scenarioStore_ok (by decide)

/-- C3: when the lookup of at least one participant of at least one
relationship fails, then, whatever the order in which the lookups complete, the
stage calls `next` once, with the unchanged error of a failed lookup, never calls
`next` without an argument and does not assign `res.locals.entity.relationships`. -/
theorem loadEntityRelationships_failFast
    (render : List EntityRecord → Relationship → String)
    (findOne : String → Except ErrorValue EntityRecord) (entity : Entity)
    (schedule : List (Nat × Nat))
    (hfail : ∃ r ∈ entity.relationships, ∃ p ∈ r.entities,
      ∃ e, findOne p.entity.entity_gid = .error e)
    (hsched : schedule.Perm (pendingLookups entity.relationships)) :
    ∃ err,
      (loadEntityRelationships render findOne (some entity) schedule).nextCalls =
        [NextArg.error err] ∧
      (∃ r ∈ entity.relationships, ∃ p ∈ r.entities,
        findOne p.entity.entity_gid = .error err) ∧
      NextArg.nothing ∉
        (loadEntityRelationships render findOne (some entity) schedule).nextCalls ∧
      (loadEntityRelationships render findOne (some entity) schedule).assigned = none := by
  obtain ⟨r, hr, p, hp, e, he⟩ := hfail
  obtain ⟨i, hi⟩ := List.mem_iff_getElem?.1 hr
  have hperm := arraySort_perm sortRelationshipEntity r.entities
  obtain ⟨j, hj⟩ := List.mem_iff_getElem?.1 (hperm.mem_iff.2 hp)
  have hjlt : j < r.entities.length := by
    rw [← hperm.length_eq]
    exact (List.getElem?_eq_some.1 hj).1
  have hev : (i, j) ∈ schedule :=
    hsched.mem_iff.2 ((mem_pendingLookups _ _ _).2 ⟨r, hi, hjlt⟩)
  have hpart : Resolution.participant
      { tasks := entity.relationships.map startRelationship, rejected := none } i j =
      some p := by
    apply participant_of_task _ i j (startRelationship r) p
    · simp [List.getElem?_map, hi]
    · rw [startRelationship_entities]
      exact hj
  have hrejected := (foldl_deliver_complete findOne schedule _ (started_wellFormed _)
    (i, j) hev p hpart).2 e he
  obtain ⟨err, herr⟩ := Option.isSome_iff_exists.1 hrejected
  obtain ⟨_, _, hrej⟩ := foldl_deliver_sound findOne schedule
    { tasks := entity.relationships.map startRelationship, rejected := none }
    (started_wellFormed _) (fun i j v h => by simp [started_slot] at h)
    (fun err h => by simp at h)
  obtain ⟨i', j', p', hp', hf'⟩ := hrej err herr
  rw [foldl_deliver_participant] at hp'
  obtain ⟨r', hr', _, hmem', _⟩ := started_participant _ _ _ _ hp'
  refine ⟨err, ?_, ⟨r', List.mem_iff_getElem?.2 ⟨_, hr'⟩, p', hmem', hf'⟩, ?_, ?_⟩
  · simp only [loadEntityRelationships, herr, List.nil_append]
  · simp only [loadEntityRelationships, herr, List.nil_append]
    simp
  · simp only [loadEntityRelationships, herr]

/-- C3 on an entity with two relationships, the second of which refers to an
entity missing from the store; the failing lookup completes second of four. -/
theorem loadEntityRelationships_failFast_witness :
    (loadEntityRelationships scenarioRender scenarioStore (some scenarioBrokenEntity)
        [(0, 1), (1, 1), (1, 0), (0, 0)]).nextCalls =
      [NextArg.error ⟨"Error", "no such entity", some 404⟩] ∧
    ∃ err,
      (loadEntityRelationships scenarioRender scenarioStore (some scenarioBrokenEntity)
        [(0, 1), (1, 1), (1, 0), (0, 0)]).nextCalls = [NextArg.error err] ∧
      (∃ r ∈ scenarioBrokenEntity.relationships, ∃ p ∈ r.entities,
        scenarioStore p.entity.entity_gid = .error err) ∧
      NextArg.nothing ∉
        (loadEntityRelationships scenarioRender scenarioStore (some scenarioBrokenEntity)
          [(0, 1), (1, 1), (1, 0), (0, 0)]).nextCalls ∧
      (loadEntityRelationships scenarioRender scenarioStore (some scenarioBrokenEntity)
        [(0, 1), (1, 1), (1, 0), (0, 0)]).assigned = none :=
  ⟨by decide,
    loadEntityRelationships_failFast scenarioRender scenarioStore scenarioBrokenEntity
      [(0, 1), (1, 1), (1, 0), (0, 0)]
      ⟨⟨⟨"{0} {1}"⟩, [⟨0, ⟨"c", []⟩⟩, ⟨1, ⟨"missing", []⟩⟩], none, none⟩, by decide,
        ⟨1, ⟨"missing", []⟩⟩, by decide, _, rfl⟩
      (by decide)⟩

/-- C10, as the specification states it, fails: in the ordering scenario all
lookups succeed and the store returns the loaded records, yet the participant
records of the relationship written back still hold the bare references, none
of which is the loaded entity the store returned for it. -/
theorem loadEntityRelationships_references_kept :
    ¬ (∀ resolved,
        (loadEntityRelationships scenarioRender scenarioStore (some scenarioEntity)
          [(0, 2), (0, 0), (0, 1)]).assigned = some resolved →
        ∀ r' ∈ resolved, ∀ p ∈ r'.entities,
          scenarioStore p.entity.entity_gid = .ok p.entity) := by
  intro h
  have hassigned : (loadEntityRelationships scenarioRender scenarioStore (some scenarioEntity)
      [(0, 2), (0, 0), (0, 1)]).assigned =
      some [{ relationship_type := ⟨"{0} {1} {2}"⟩
              entities := [⟨0, ⟨"a", []⟩⟩, ⟨1, ⟨"b", []⟩⟩, ⟨2, ⟨"c", []⟩⟩]
              template := some "{0} {1} {2}"
              rendered := some "abc" }] := by decide
  have ha := h _ hassigned _ (List.mem_singleton.2 rfl) ⟨0, ⟨"a", []⟩⟩ (by simp)
  simp [scenarioStore] at ha

/-- C10, amended: when all lookups succeed, each relationship written back is
the original relationship with `template` set to the template of its type, with
its participant records (entity references included) unchanged but stably sorted
by position, and with `rendered` set to what the renderer returns for the loaded
entities, which are index for index the lookup results of the sorted
participants. -/
theorem loadEntityRelationships_resolved
    (render : List EntityRecord → Relationship → String)
    (findOne : String → Except ErrorValue EntityRecord) (entity : Entity)
    (schedule : List (Nat × Nat))
    (hok : ∀ r ∈ entity.relationships, ∀ p ∈ r.entities,
      ∃ v, findOne p.entity.entity_gid = .ok v)
    (hsched : schedule.Perm (pendingLookups entity.relationships))
    (i : Nat) (r : Relationship) (hr : entity.relationships[i]? = some r) :
    ∃ resolved r' loaded,
      (loadEntityRelationships render findOne (some entity) schedule).assigned =
        some resolved ∧
      resolved[i]? = some r' ∧
      r'.relationship_type = r.relationship_type ∧
      r'.template = some r.relationship_type.template ∧
      IsStableSort sortRelationshipEntity r.entities r'.entities ∧
      loaded.map Except.ok = r'.entities.map (fun p => findOne p.entity.entity_gid) ∧
      r'.rendered = some (render loaded
        { r with
          template := some r.relationship_type.template
          entities := r'.entities }) := by
  obtain ⟨tasks, _, hassigned, _, _, hstart, hloaded⟩ :=
    loadEntityRelationships_success render findOne entity schedule hok
      (fun ev hev => hsched.mem_iff.2 hev)
  obtain ⟨t, ht, htr⟩ := task_of_started tasks _ hstart i r hr
  obtain ⟨loaded, hl, hmap⟩ := hloaded t (List.mem_iff_getElem?.2 ⟨_, ht⟩)
  refine ⟨tasks.map (finish render), finish render t, loaded, hassigned, ?_, ?_, ?_, ?_, ?_, ?_⟩
  · rw [List.getElem?_map, ht]
    rfl
  · rw [finish_of_collect render t loaded hl, htr]
    rfl
  · rw [finish_of_collect render t loaded hl, htr]
    rfl
  · rw [finish_of_collect render t loaded hl, htr]
    exact arraySort_isStableSort sortRelationshipEntity_consistent r.entities
  · rw [finish_of_collect render t loaded hl, hmap]
  · rw [finish_of_collect render t loaded hl, htr]
    rfl

/-- C10, amended, on the ordering scenario. -/
theorem loadEntityRelationships_resolved_witness :
    ∃ resolved r' loaded,
      (loadEntityRelationships scenarioRender scenarioStore (some scenarioEntity)
        [(0, 0), (0, 2), (0, 1)]).assigned = some resolved ∧
      resolved[0]? = some r' ∧
      r'.relationship_type = ⟨"{0} {1} {2}"⟩ ∧
      r'.template = some "{0} {1} {2}" ∧
      IsStableSort sortRelationshipEntity
        [⟨2, ⟨"c", []⟩⟩, ⟨0, ⟨"a", []⟩⟩, ⟨1, ⟨"b", []⟩⟩] r'.entities ∧
      loaded.map Except.ok = r'.entities.map (fun p => scenarioStore p.entity.entity_gid) ∧
      r'.rendered = some (scenarioRender loaded
        { relationship_type := ⟨"{0} {1} {2}"⟩
          entities := r'.entities
          template := some "{0} {1} {2}"
          rendered := none }) :=
  loadEntityRelationships_resolved scenarioRender scenarioStore scenarioEntity
    [(0, 0), (0, 2), (0, 1)] scenarioStore_ok (by decide) 0 _ rfl

end BookBrainz
